import Mathlib

/-
  Verification of the stream library in src/src/streams.h.

  The library is a pull-based lazy stream abstraction: source iterators
  (a bounded range over two cursors, and a permanently empty source),
  transform iterators (map, filter, flat-map, tap, limit) that each wrap one
  upstream iterator, a Stream facade holding one iterator by value, and
  terminal operations that drive the pull loop.

  Modelling conventions of this shallow embedding:
  * An iterator variant of the source becomes a Lean structure; the member
    functions hasNext / estimateRemaining / next become functions bundled in
    the type class Iter.  next both returns the element and advances, so it
    is modelled as a state-passing function returning the element and the
    advanced iterator.
  * The source throws Detail.Exception only in EmptyIterator.next; this is
    the IllegalState error of the documentation.  Every other out-of-contract
    pull in the source is an invalid access (dereferencing the past-the-end
    cursor of a range, or reading a TypedStorage slot that was never
    constructed): those are undefined behaviour in C++, represented here by
    the distinct error value undefinedBehavior.  Failure is modelled with
    Except: an error discards the iterator state, as an escaping exception
    does for a caller that can no longer use the object.
  * The cursor pair (current, end) of a range iterator is represented by the
    list of elements the pair still spans; the distance end - current is the
    length of that list.
  * TypedStorage T together with its liveness flag (hasInit of the filter,
    hasInnerIt of the flat-map) is modelled as Option T: none is the
    never-constructed slot, and reading it is undefined behaviour.
  * The side-effecting closure given to tap is modelled as a state
    transformer over its captured environment, carried and threaded
    explicitly by the tap iterator.
  * hasNext in the source is a non-const member function; hasNextM is its
    state-threaded rendering (it returns the possibly updated iterator),
    while hasNext is the pure boolean value.  That the two agree, i.e. that
    hasNext never updates anything, is proved, not assumed.
  * The C++ int of limit and of the counting terminals is modelled as Int.
-/

namespace Streams

/-- Error outcomes of pulling from an iterator: illegalState is the
Detail.Exception thrown by EmptyIterator.next; undefinedBehavior stands for
an invalid access the source performs without throwing (past-the-end
dereference, or a read of a never-constructed TypedStorage slot). -/
inductive StreamError : Type
  | illegalState
  | undefinedBehavior
deriving DecidableEq, Repr

/-- Iterator protocol of src/src/streams.h: has a next element, a
non-authoritative estimate of the remaining count, and consume-and-return
the next element.  hasNextM is the state-threaded rendering of the
non-const member function hasNext; hasNext is the pure value. -/
class Iter (ι : Type) (E : outParam Type) where
  hasNext : ι → Bool
  hasNextM : ι → Bool × ι
  estimateRemaining : ι → Int
  next : ι → Except StreamError (E × ι)

/-- Lawfulness of an iterator: it denotes the list of elements it will still
yield; hasNext answers whether that list is nonempty, and next, invoked with
hasNext true, yields its head and an iterator denoting its tail.  Nothing is
claimed about next when hasNext is false (the source treats that as a
precondition violation). -/
class LawfulIter (ι : Type) (E : outParam Type) [Iter ι E] where
  toList : ι → List E
  hasNext_eq : ∀ i : ι, Iter.hasNext i = !(toList i).isEmpty
  next_toList : ∀ i : ι, Iter.hasNext i = true →
    ∃ x i', Iter.next i = Except.ok (x, i') ∧ toList i = x :: toList i'

/-- A successful pull from an iterator with hasNext true removes exactly the
head of its denotation. -/
theorem toList_next_ok {ι E : Type} [Iter ι E] [LawfulIter ι E] {i i' : ι} {x : E}
    (h : Iter.hasNext i = true) (h2 : Iter.next i = Except.ok (x, i')) :
    LawfulIter.toList i = x :: LawfulIter.toList i' := by
  obtain ⟨y, j, hok, hl⟩ := LawfulIter.next_toList i h
  rw [h2] at hok
  injection hok with h3
  injection h3 with hx hj
  subst hx
  subst hj
  exact hl

/-- A lawful iterator whose hasNext is true cannot fail on next. -/
theorem not_next_error {ι E : Type} [Iter ι E] [LawfulIter ι E] {i : ι} {e : StreamError}
    (h : Iter.hasNext i = true) (h2 : Iter.next i = Except.error e) : False := by
  obtain ⟨y, j, hok, _⟩ := LawfulIter.next_toList i h
  rw [h2] at hok
  exact Except.noConfusion hok

/-- A lawful iterator whose hasNext is false denotes the empty list. -/
theorem toList_eq_nil {ι E : Type} [Iter ι E] [LawfulIter ι E] {i : ι}
    (h : ¬ Iter.hasNext i = true) : LawfulIter.toList i = [] := by
  have he := LawfulIter.hasNext_eq i
  cases hl : LawfulIter.toList i with
  | nil => rfl
  | cons a l =>
    rw [hl] at he
    simp only [List.isEmpty_cons, Bool.not_false] at he
    exact absurd he h

/-- Purity of hasNext for one iterator type: the state-threaded rendering
returns the answer of the pure hasNext and leaves the iterator unchanged. -/
def PureHasNext (ι : Type) (E : Type) [Iter ι E] : Prop :=
  ∀ i : ι, Iter.hasNextM i = (Iter.hasNext i, i)

/-- Source iterator over a bounded cursor range (StreamIterator of the
source): the pair (current, end) is represented by the list of elements it
still spans. -/
structure StreamIterator (E : Type) : Type where
  current : List E
deriving DecidableEq, Repr

/-- StreamIterator.hasNext: current is not yet at end. -/
def StreamIterator.hasNext {E : Type} (s : StreamIterator E) : Bool :=
  !s.current.isEmpty

/-- StreamIterator.estimateRemaining: the exact distance end - current. -/
def StreamIterator.estimateRemaining {E : Type} (s : StreamIterator E) : Int :=
  (s.current.length : Int)

/-- StreamIterator.next: moves the element at current out and advances.  It
performs no check: when current = end the source dereferences the
past-the-end cursor, which is undefined behaviour, not an IllegalState
throw. -/
def StreamIterator.next {E : Type} (s : StreamIterator E) :
    Except StreamError (E × StreamIterator E) :=
  match s.current with
  | [] => Except.error StreamError.undefinedBehavior
  | x :: rest => Except.ok (x, ⟨rest⟩)

instance instIterStreamIterator {E : Type} : Iter (StreamIterator E) E where
  hasNext := StreamIterator.hasNext
  hasNextM s := (StreamIterator.hasNext s, s)
  estimateRemaining := StreamIterator.estimateRemaining
  next := StreamIterator.next

instance instLawfulStreamIterator {E : Type} : LawfulIter (StreamIterator E) E where
  toList s := s.current
  hasNext_eq i := rfl
  next_toList i h := by
    cases hc : i.current with
    | nil =>
      exfalso
      have : Iter.hasNext i = false := by
        show StreamIterator.hasNext i = false
        unfold StreamIterator.hasNext
        rw [hc]
        rfl
      rw [this] at h
      exact Bool.noConfusion h
    | cons x rest =>
      refine ⟨x, ⟨rest⟩, ?_, ?_⟩
      · show StreamIterator.next i = Except.ok (x, ⟨rest⟩)
        unfold StreamIterator.next
        rw [hc]
      · exact hc

/-- Permanently empty source (EmptyIterator of the source). -/
structure EmptyIterator (E : Type) : Type
deriving DecidableEq, Repr

/-- EmptyIterator.next: always throws Detail.Exception, the IllegalState
error. -/
def EmptyIterator.next {E : Type} (_ : EmptyIterator E) :
    Except StreamError (E × EmptyIterator E) :=
  Except.error StreamError.illegalState

instance instIterEmptyIterator {E : Type} : Iter (EmptyIterator E) E where
  hasNext _ := false
  hasNextM e := (false, e)
  estimateRemaining _ := 0
  next := EmptyIterator.next

instance instLawfulEmptyIterator {E : Type} : LawfulIter (EmptyIterator E) E where
  toList _ := []
  hasNext_eq := fun _ => rfl
  next_toList := fun _ h => Bool.noConfusion h

/-- Stream facade: owns exactly one iterator by value.  The chaining calls
of the source pass the member iterator as an lvalue into the new transform
iterator (a copy of the iterator value), so building a new stage reads the
current iterator; in this value-level embedding that is a plain functional
read. -/
structure Stream (ι : Type) : Type where
  iterator : ι

/-- Stream.getIterator of the source. -/
def Stream.getIterator {ι : Type} (s : Stream ι) : ι :=
  s.iterator

/-- Stateless per-element transform (MapIterator of the source). -/
structure MapIterator (ι E F : Type) : Type where
  it : ι
  lambda : E → F

/-- MapIterator.next: apply the transform to the element pulled upstream; an
upstream failure propagates. -/
def MapIterator.next {ι E F : Type} [Iter ι E] (m : MapIterator ι E F) :
    Except StreamError (F × MapIterator ι E F) :=
  match Iter.next m.it with
  | Except.error e => Except.error e
  | Except.ok (x, u) => Except.ok (m.lambda x, ⟨u, m.lambda⟩)

instance instIterMapIterator {ι E F : Type} [Iter ι E] : Iter (MapIterator ι E F) F where
  hasNext m := Iter.hasNext m.it
  hasNextM m :=
    let p := Iter.hasNextM m.it
    (p.1, ⟨p.2, m.lambda⟩)
  estimateRemaining m := Iter.estimateRemaining m.it
  next := MapIterator.next

instance instLawfulMapIterator {ι E F : Type} [Iter ι E] [LawfulIter ι E] :
    LawfulIter (MapIterator ι E F) F where
  toList m := (LawfulIter.toList m.it).map m.lambda
  hasNext_eq m := by
    show Iter.hasNext m.it = !((LawfulIter.toList m.it).map m.lambda).isEmpty
    rw [LawfulIter.hasNext_eq m.it]
    cases hl : LawfulIter.toList m.it <;> simp [hl]
  next_toList m h := by
    obtain ⟨x, u, hok, hl⟩ := LawfulIter.next_toList m.it h
    refine ⟨m.lambda x, ⟨u, m.lambda⟩, ?_, ?_⟩
    · show MapIterator.next m = _
      unfold MapIterator.next
      rw [hok]
    · show (LawfulIter.toList m.it).map m.lambda = _
      rw [hl]
      rfl

/-- Side-effecting pass-through (TapIterator of the source).  The closure's
captured environment has type σ and the closure is a state transformer on
it; the environment travels with the iterator. -/
structure TapIterator (ι E σ : Type) : Type where
  it : ι
  lambda : E → σ → σ
  state : σ

/-- TapIterator.next: pull an upstream element, invoke the side-effect
function with it, return it unchanged. -/
def TapIterator.next {ι E σ : Type} [Iter ι E] (t : TapIterator ι E σ) :
    Except StreamError (E × TapIterator ι E σ) :=
  match Iter.next t.it with
  | Except.error e => Except.error e
  | Except.ok (x, u) => Except.ok (x, ⟨u, t.lambda, t.lambda x t.state⟩)

instance instIterTapIterator {ι E σ : Type} [Iter ι E] : Iter (TapIterator ι E σ) E where
  hasNext t := Iter.hasNext t.it
  hasNextM t :=
    let p := Iter.hasNextM t.it
    (p.1, ⟨p.2, t.lambda, t.state⟩)
  estimateRemaining t := Iter.estimateRemaining t.it
  next := TapIterator.next

instance instLawfulTapIterator {ι E σ : Type} [Iter ι E] [LawfulIter ι E] :
    LawfulIter (TapIterator ι E σ) E where
  toList t := LawfulIter.toList t.it
  hasNext_eq t := LawfulIter.hasNext_eq t.it
  next_toList t h := by
    obtain ⟨x, u, hok, hl⟩ := LawfulIter.next_toList t.it h
    refine ⟨x, ⟨u, t.lambda, t.lambda x t.state⟩, ?_, hl⟩
    show TapIterator.next t = _
    unfold TapIterator.next
    rw [hok]

/-- Count-bounded pass-through (LimitIterator of the source). -/
structure LimitIterator (ι : Type) : Type where
  it : ι
  size : Int
  idx : Int

/-- LimitIterator.hasNext: index below the bound AND the upstream has a next
element; the conjunction short-circuits in the source, see the hasNextM
field of the Iter instance. -/
def LimitIterator.hasNext {ι E : Type} [Iter ι E] (l : LimitIterator ι) : Bool :=
  decide (l.idx < l.size) && Iter.hasNext l.it

/-- LimitIterator.estimateRemaining: the smaller of the upstream estimate and
size - idx. -/
def LimitIterator.estimateRemaining {ι E : Type} [Iter ι E] (l : LimitIterator ι) : Int :=
  let rem := Iter.estimateRemaining l.it
  if rem < l.size - l.idx then rem else l.size - l.idx

/-- LimitIterator.next: increments the index and delegates to the upstream
without checking the bound (an upstream failure escapes after the
increment; the Except model discards the updated index with the object). -/
def LimitIterator.next {ι E : Type} [Iter ι E] (l : LimitIterator ι) :
    Except StreamError (E × LimitIterator ι) :=
  match Iter.next l.it with
  | Except.error e => Except.error e
  | Except.ok (x, u) => Except.ok (x, ⟨u, l.size, l.idx + 1⟩)

instance instIterLimitIterator {ι E : Type} [Iter ι E] : Iter (LimitIterator ι) E where
  hasNext := LimitIterator.hasNext
  hasNextM l :=
    if l.idx < l.size then
      let p := Iter.hasNextM l.it
      (p.1, ⟨p.2, l.size, l.idx⟩)
    else
      (false, l)
  estimateRemaining := LimitIterator.estimateRemaining
  next := LimitIterator.next

instance instLawfulLimitIterator {ι E : Type} [Iter ι E] [LawfulIter ι E] :
    LawfulIter (LimitIterator ι) E where
  toList l := (LawfulIter.toList l.it).take (l.size - l.idx).toNat
  hasNext_eq l := by
    show LimitIterator.hasNext l =
      !((LawfulIter.toList l.it).take (l.size - l.idx).toNat).isEmpty
    unfold LimitIterator.hasNext
    rw [LawfulIter.hasNext_eq l.it]
    by_cases hi : l.idx < l.size
    · have hk : ∃ k, (l.size - l.idx).toNat = k + 1 := by
        refine ⟨(l.size - l.idx).toNat - 1, ?_⟩
        omega
      obtain ⟨k, hk⟩ := hk
      rw [hk]
      cases hl : LawfulIter.toList l.it <;> simp [hi]
    · have hk : (l.size - l.idx).toNat = 0 := by omega
      rw [hk]
      simp [hi]
  next_toList l h := by
    have hh : (decide (l.idx < l.size) && Iter.hasNext l.it) = true := h
    rw [Bool.and_eq_true] at hh
    obtain ⟨hi, hup⟩ := hh
    rw [decide_eq_true_eq] at hi
    obtain ⟨x, u, hok, hl⟩ := LawfulIter.next_toList l.it hup
    refine ⟨x, ⟨u, l.size, l.idx + 1⟩, ?_, ?_⟩
    · show LimitIterator.next l = _
      unfold LimitIterator.next
      rw [hok]
    · show (LawfulIter.toList l.it).take (l.size - l.idx).toNat = _
      rw [hl]
      have hk : (l.size - l.idx).toNat = (l.size - (l.idx + 1)).toNat + 1 := by omega
      rw [hk, List.take_succ_cons]

/-- Lookahead-buffering filter (FilterIterator of the source).  The
TypedStorage TValue slot and the hasInit flag are modelled together as
currentValue : Option E (none = never constructed).  The wf field is the
storage invariant the source maintains implicitly: whenever hasValue is
set, a matched element is live in the slot. -/
structure FilterIterator (ι E : Type) : Type where
  it : ι
  lambda : E → Bool
  hasValue : Bool
  currentValue : Option E
  wf : hasValue = true → currentValue.isSome = true

/-- FilterIterator.moveNext, written on the fields it reads: clears
hasValue, then pulls upstream elements while the upstream has one; the
first element satisfying the predicate is stored (construct or assign over
the previous live value) and hasValue is set; exhaustion without a match
leaves hasValue cleared and the previous slot content (cur) in place. -/
def FilterIterator.moveNext {ι E : Type} [Iter ι E] [LawfulIter ι E]
    (it : ι) (lambda : E → Bool) (cur : Option E) : FilterIterator ι E :=
  if h : Iter.hasNext it = true then
    match h2 : Iter.next it with
    | Except.ok (x, it') =>
      if lambda x then
        ⟨it', lambda, true, some x, fun _ => rfl⟩
      else
        FilterIterator.moveNext it' lambda cur
    | Except.error _ => False.elim (not_next_error h h2)
  else
    ⟨it, lambda, false, cur, fun hh => Bool.noConfusion hh⟩
termination_by (LawfulIter.toList it).length
decreasing_by
  rw [toList_next_ok h h2, List.length_cons]
  omega

/-- FilterIterator.next: reads the slot, refills, and returns the read copy.
It checks nothing: with a never-constructed slot the read is undefined
behaviour, and with a stale slot (hasValue already false) the stale value is
returned. -/
def FilterIterator.next {ι E : Type} [Iter ι E] [LawfulIter ι E]
    (f : FilterIterator ι E) : Except StreamError (E × FilterIterator ι E) :=
  match f.currentValue with
  | none => Except.error StreamError.undefinedBehavior
  | some x => Except.ok (x, FilterIterator.moveNext f.it f.lambda (some x))

/-- Elements a filter iterator will still yield: the buffered match, then
the matching elements of the remaining upstream. -/
def FilterIterator.toList {ι E : Type} [Iter ι E] [LawfulIter ι E]
    (f : FilterIterator ι E) : List E :=
  match f.hasValue, f.currentValue with
  | true, some x => x :: (LawfulIter.toList f.it).filter f.lambda
  | true, none => []
  | false, _ => []

instance instIterFilterIterator {ι E : Type} [Iter ι E] [LawfulIter ι E] :
    Iter (FilterIterator ι E) E where
  hasNext f := f.hasValue
  hasNextM f := (f.hasValue, f)
  estimateRemaining f := Iter.estimateRemaining f.it
  next := FilterIterator.next

/-- The refill loop yields exactly the matching elements of the remaining
upstream, whatever stale content the slot held. -/
theorem FilterIterator.moveNext_spec {ι E : Type} [Iter ι E] [LawfulIter ι E]
    (it : ι) (lambda : E → Bool) (cur : Option E) :
    (FilterIterator.moveNext it lambda cur).toList =
      (LawfulIter.toList it).filter lambda := by
  induction it, lambda, cur using FilterIterator.moveNext.induct with
  | case1 it lam cur h x it' h2 hx =>
    unfold FilterIterator.moveNext
    rw [dif_pos h]
    split
    · rename_i y it2 h3
      rw [h2] at h3
      injection h3 with h4
      injection h4 with hy hit
      subst hy
      subst hit
      rw [if_pos hx]
      show x :: (LawfulIter.toList it').filter lam = _
      rw [toList_next_ok h h2, List.filter_cons, if_pos hx]
    · rename_i e h3
      exact False.elim (not_next_error h h3)
  | case2 it lam cur h x it' h2 hx ih =>
    unfold FilterIterator.moveNext
    rw [dif_pos h]
    split
    · rename_i y it2 h3
      rw [h2] at h3
      injection h3 with h4
      injection h4 with hy hit
      subst hy
      subst hit
      rw [if_neg hx, ih]
      rw [toList_next_ok h h2, List.filter_cons, if_neg hx]
    · rename_i e h3
      exact False.elim (not_next_error h h3)
  | case3 it lam cur h e h2 =>
    exact False.elim (not_next_error h h2)
  | case4 it lam cur h =>
    unfold FilterIterator.moveNext
    rw [dif_neg h, toList_eq_nil h]
    rfl

instance instLawfulFilterIterator {ι E : Type} [Iter ι E] [LawfulIter ι E] :
    LawfulIter (FilterIterator ι E) E where
  toList := FilterIterator.toList
  hasNext_eq f := by
    show f.hasValue = !f.toList.isEmpty
    unfold FilterIterator.toList
    cases hv : f.hasValue with
    | false => rfl
    | true =>
      cases hc : f.currentValue with
      | none =>
        have := f.wf hv
        rw [hc] at this
        exact Bool.noConfusion this
      | some x => rfl
  next_toList f h := by
    have hv : f.hasValue = true := h
    cases hc : f.currentValue with
    | none =>
      have := f.wf hv
      rw [hc] at this
      exact Bool.noConfusion this
    | some x =>
      refine ⟨x, FilterIterator.moveNext f.it f.lambda (some x), ?_, ?_⟩
      · show FilterIterator.next f = _
        unfold FilterIterator.next
        rw [hc]
      · show f.toList = x :: (FilterIterator.moveNext f.it f.lambda (some x)).toList
        rw [FilterIterator.moveNext_spec]
        unfold FilterIterator.toList
        rw [hv, hc]

/-- Two-level iteration (FlatMapIterator of the source).  The transform maps
each outer element to an inner Stream whose iterator is taken; the
TypedStorage TInnerIt slot and the hasInnerIt flag are modelled together as
innerIt : Option ι₂.  The wf field is the invariant moveNext maintains:
whenever hasValue is set, a live inner iterator with a next element is in
the slot. -/
structure FlatMapIterator (ι₁ E ι₂ F : Type) [Iter ι₂ F] : Type where
  streamIt : ι₁
  lambda : E → Stream ι₂
  innerIt : Option ι₂
  hasValue : Bool
  wf : hasValue = true → ∃ ii, innerIt = some ii ∧ Iter.hasNext ii = true

/-- Loop of FlatMapIterator.moveNext: while the outer iterator has a next
element, pull it, store the iterator of the transformed inner stream into
the slot (construct or assign), and stop with hasValue set as soon as the
stored inner iterator has a next element; outer exhaustion leaves hasValue
cleared with the last slot content in place. -/
def FlatMapIterator.moveNextLoop {ι₁ E ι₂ F : Type} [Iter ι₁ E] [LawfulIter ι₁ E]
    [Iter ι₂ F] (streamIt : ι₁) (lambda : E → Stream ι₂) (innerIt : Option ι₂) :
    FlatMapIterator ι₁ E ι₂ F :=
  if h : Iter.hasNext streamIt = true then
    match h2 : Iter.next streamIt with
    | Except.ok (x, outer') =>
      if hin : Iter.hasNext (lambda x).iterator = true then
        ⟨outer', lambda, some (lambda x).iterator, true,
          fun _ => ⟨(lambda x).iterator, rfl, hin⟩⟩
      else
        FlatMapIterator.moveNextLoop outer' lambda (some (lambda x).iterator)
    | Except.error _ => False.elim (not_next_error h h2)
  else
    ⟨streamIt, lambda, innerIt, false, fun hh => Bool.noConfusion hh⟩
termination_by (LawfulIter.toList streamIt).length
decreasing_by
  rw [toList_next_ok h h2, List.length_cons]
  omega

/-- FlatMapIterator.moveNext: clears hasValue, keeps the current inner
iterator when it still has a next element (fast path), and otherwise runs
the outer loop. -/
def FlatMapIterator.moveNext {ι₁ E ι₂ F : Type} [Iter ι₁ E] [LawfulIter ι₁ E]
    [Iter ι₂ F] (streamIt : ι₁) (lambda : E → Stream ι₂) (innerIt : Option ι₂) :
    FlatMapIterator ι₁ E ι₂ F :=
  match innerIt with
  | some ii =>
    if hin : Iter.hasNext ii = true then
      ⟨streamIt, lambda, some ii, true, fun _ => ⟨ii, rfl, hin⟩⟩
    else
      FlatMapIterator.moveNextLoop streamIt lambda (some ii)
  | none => FlatMapIterator.moveNextLoop streamIt lambda none

/-- FlatMapIterator.next: pulls from the slot's inner iterator (a read of a
never-constructed slot is undefined behaviour; an inner failure propagates),
then refills. -/
def FlatMapIterator.next {ι₁ E ι₂ F : Type} [Iter ι₁ E] [LawfulIter ι₁ E]
    [Iter ι₂ F] (fm : FlatMapIterator ι₁ E ι₂ F) :
    Except StreamError (F × FlatMapIterator ι₁ E ι₂ F) :=
  match fm.innerIt with
  | none => Except.error StreamError.undefinedBehavior
  | some ii =>
    match Iter.next ii with
    | Except.error e => Except.error e
    | Except.ok (x, ii') =>
      Except.ok (x, FlatMapIterator.moveNext fm.streamIt fm.lambda (some ii'))

instance instIterFlatMapIterator {ι₁ E ι₂ F : Type} [Iter ι₁ E] [LawfulIter ι₁ E]
    [Iter ι₂ F] : Iter (FlatMapIterator ι₁ E ι₂ F) F where
  hasNext fm := fm.hasValue
  hasNextM fm := (fm.hasValue, fm)
  estimateRemaining fm := Iter.estimateRemaining fm.streamIt
  next := FlatMapIterator.next

/-- Remaining elements of an inner-iterator slot: a never-constructed slot
holds nothing. -/
def innerRemaining {ι₂ F : Type} [Iter ι₂ F] [LawfulIter ι₂ F] (o : Option ι₂) : List F :=
  match o with
  | some ii => LawfulIter.toList ii
  | none => []

/-- Elements a flat-map iterator will still yield: the live inner
iterator's remaining elements, then the inner elements of each remaining
outer element, concatenated. -/
def FlatMapIterator.toList {ι₁ E ι₂ F : Type} [Iter ι₁ E] [LawfulIter ι₁ E]
    [Iter ι₂ F] [LawfulIter ι₂ F] (fm : FlatMapIterator ι₁ E ι₂ F) : List F :=
  if fm.hasValue then
    innerRemaining fm.innerIt ++
      ((LawfulIter.toList fm.streamIt).map
        (fun x => LawfulIter.toList (fm.lambda x).iterator)).flatten
  else []

/-- The outer loop of the refill yields exactly the concatenation of the
inner elements of the remaining outer elements, whatever the slot held. -/
theorem FlatMapIterator.toList_moveNextLoop {ι₁ E ι₂ F : Type} [Iter ι₁ E]
    [LawfulIter ι₁ E] [Iter ι₂ F] [LawfulIter ι₂ F] (streamIt : ι₁)
    (lambda : E → Stream ι₂) (innerIt : Option ι₂) :
    (FlatMapIterator.moveNextLoop streamIt lambda innerIt :
        FlatMapIterator ι₁ E ι₂ F).toList =
      ((LawfulIter.toList streamIt).map
        (fun x => LawfulIter.toList (lambda x).iterator)).flatten := by
  induction streamIt, lambda, innerIt using FlatMapIterator.moveNextLoop.induct with
  | case1 outer lam inner h x outer' h2 hin =>
    unfold FlatMapIterator.moveNextLoop
    rw [dif_pos h]
    split
    · rename_i y outer2 h3
      rw [h2] at h3
      injection h3 with h4
      injection h4 with hy ho
      subst hy
      subst ho
      rw [dif_pos hin]
      show LawfulIter.toList (lam x).iterator ++ _ = _
      rw [toList_next_ok h h2]
      rfl
    · rename_i e h3
      exact False.elim (not_next_error h h3)
  | case2 outer lam inner h x outer' h2 hin ih =>
    unfold FlatMapIterator.moveNextLoop
    rw [dif_pos h]
    split
    · rename_i y outer2 h3
      rw [h2] at h3
      injection h3 with h4
      injection h4 with hy ho
      subst hy
      subst ho
      rw [dif_neg hin, ih, toList_next_ok h h2]
      show _ = (LawfulIter.toList (lam x).iterator ++
        ((LawfulIter.toList outer').map
          (fun z => LawfulIter.toList (lam z).iterator)).flatten)
      rw [toList_eq_nil hin]
      rfl
    · rename_i e h3
      exact False.elim (not_next_error h h3)
  | case3 outer lam inner h e h2 =>
    exact False.elim (not_next_error h h2)
  | case4 outer lam inner h =>
    unfold FlatMapIterator.moveNextLoop
    rw [dif_neg h, toList_eq_nil h]
    rfl

/-- FlatMapIterator.moveNext yields the slot's remaining elements followed
by the remaining outer elements' inner elements. -/
theorem FlatMapIterator.toList_moveNext {ι₁ E ι₂ F : Type} [Iter ι₁ E]
    [LawfulIter ι₁ E] [Iter ι₂ F] [LawfulIter ι₂ F] (streamIt : ι₁)
    (lambda : E → Stream ι₂) (innerIt : Option ι₂) :
    (FlatMapIterator.moveNext streamIt lambda innerIt :
        FlatMapIterator ι₁ E ι₂ F).toList =
      innerRemaining innerIt ++
      ((LawfulIter.toList streamIt).map
        (fun x => LawfulIter.toList (lambda x).iterator)).flatten := by
  cases innerIt with
  | none =>
    simp only [FlatMapIterator.moveNext]
    rw [FlatMapIterator.toList_moveNextLoop]
    rfl
  | some ii =>
    by_cases hin : Iter.hasNext ii = true
    · simp only [FlatMapIterator.moveNext]
      rw [dif_pos hin]
      rfl
    · simp only [FlatMapIterator.moveNext]
      rw [dif_neg hin, FlatMapIterator.toList_moveNextLoop]
      show _ = innerRemaining (some ii) ++ _
      simp only [innerRemaining]
      rw [toList_eq_nil hin]
      rfl

instance instLawfulFlatMapIterator {ι₁ E ι₂ F : Type} [Iter ι₁ E] [LawfulIter ι₁ E]
    [Iter ι₂ F] [LawfulIter ι₂ F] : LawfulIter (FlatMapIterator ι₁ E ι₂ F) F where
  toList := FlatMapIterator.toList
  hasNext_eq fm := by
    show fm.hasValue = !fm.toList.isEmpty
    unfold FlatMapIterator.toList
    cases hv : fm.hasValue with
    | false => rfl
    | true =>
      obtain ⟨ii, hslot, hii⟩ := fm.wf hv
      rw [hslot]
      simp only [innerRemaining]
      have hne := LawfulIter.hasNext_eq ii
      rw [hii] at hne
      cases hl : LawfulIter.toList ii with
      | nil =>
        rw [hl] at hne
        exact Bool.noConfusion hne
      | cons a l => simp [hl]
  next_toList fm h := by
    have hv : fm.hasValue = true := h
    obtain ⟨ii, hslot, hii⟩ := fm.wf hv
    obtain ⟨x, ii', hok, hl⟩ := LawfulIter.next_toList ii hii
    refine ⟨x, FlatMapIterator.moveNext fm.streamIt fm.lambda (some ii'), ?_, ?_⟩
    · show FlatMapIterator.next fm = _
      unfold FlatMapIterator.next
      rw [hslot]
      show (match Iter.next ii with
        | Except.error e => Except.error e
        | Except.ok (y, jj) =>
          Except.ok (y, FlatMapIterator.moveNext fm.streamIt fm.lambda (some jj))) = _
      rw [hok]
    · show fm.toList = _
      rw [FlatMapIterator.toList_moveNext]
      unfold FlatMapIterator.toList
      rw [if_pos hv, hslot]
      simp only [innerRemaining]
      rw [hl]
      rfl

/-- Entry point of for a container/pointer range: a bounded-range source
stream over the elements the cursor pair spans (the of overloads of the
source). -/
def Stream.ofList {E : Type} (l : List E) : Stream (StreamIterator E) :=
  ⟨⟨l⟩⟩

/-- Entry point empty: an explicit empty-stream constructor. -/
def Stream.emptyStream (E : Type) : Stream (EmptyIterator E) :=
  ⟨⟨⟩⟩

/-- Stream.map: wraps the current iterator in a map iterator. -/
def Stream.map {ι E F : Type} [Iter ι E] (s : Stream ι) (lambda : E → F) :
    Stream (MapIterator ι E F) :=
  ⟨⟨s.iterator, lambda⟩⟩

/-- Stream.filter: wraps the current iterator in a filter iterator, whose
construction runs the lookahead (moveNext) once, from a never-constructed
slot. -/
def Stream.filter {ι E : Type} [Iter ι E] [LawfulIter ι E] (s : Stream ι)
    (lambda : E → Bool) : Stream (FilterIterator ι E) :=
  ⟨FilterIterator.moveNext s.iterator lambda none⟩

/-- Stream.flatMap: wraps the current iterator in a flat-map iterator, whose
construction runs the refill (moveNext) once, from a never-constructed
slot. -/
def Stream.flatMap {ι₁ E ι₂ F : Type} [Iter ι₁ E] [LawfulIter ι₁ E] [Iter ι₂ F]
    (s : Stream ι₁) (lambda : E → Stream ι₂) : Stream (FlatMapIterator ι₁ E ι₂ F) :=
  ⟨FlatMapIterator.moveNext s.iterator lambda none⟩

/-- Stream.tap: wraps the current iterator in a tap iterator; the closure's
captured environment starts as state0 and travels with the iterator. -/
def Stream.tap {ι E σ : Type} [Iter ι E] (s : Stream ι) (lambda : E → σ → σ)
    (state0 : σ) : Stream (TapIterator ι E σ) :=
  ⟨⟨s.iterator, lambda, state0⟩⟩

/-- Stream.limit: wraps the current iterator in a limit iterator with the
index counter at zero. -/
def Stream.limit {ι E : Type} [Iter ι E] (s : Stream ι) (size : Int) :
    Stream (LimitIterator ι) :=
  ⟨⟨s.iterator, size, 0⟩⟩

/-- Terminal Stream.sink: drains without collecting.  The source mutates the
member iterator in place and returns void; the model returns the stream in
its final state. -/
def Stream.sink {ι E : Type} [Iter ι E] [LawfulIter ι E] (s : Stream ι) : Stream ι :=
  if h : Iter.hasNext s.iterator = true then
    match h2 : Iter.next s.iterator with
    | Except.ok (_, i') => Stream.sink ⟨i'⟩
    | Except.error _ => False.elim (not_next_error h h2)
  else s
termination_by (LawfulIter.toList s.iterator).length
decreasing_by
  rw [toList_next_ok h h2, List.length_cons]
  omega

/-- Terminal Stream.reduce: left fold in pull order, accu = f(element, accu). -/
def Stream.reduce {ι E A : Type} [Iter ι E] [LawfulIter ι E] (s : Stream ι)
    (f : E → A → A) (accu : A) : A :=
  if h : Iter.hasNext s.iterator = true then
    match h2 : Iter.next s.iterator with
    | Except.ok (x, i') => Stream.reduce ⟨i'⟩ f (f x accu)
    | Except.error _ => False.elim (not_next_error h h2)
  else accu
termination_by (LawfulIter.toList s.iterator).length
decreasing_by
  rw [toList_next_ok h h2, List.length_cons]
  omega

/-- Loop of terminal Stream.count with its running int counter. -/
def Stream.countLoop {ι E : Type} [Iter ι E] [LawfulIter ι E] (s : Stream ι)
    (ctr : Int) : Int :=
  if h : Iter.hasNext s.iterator = true then
    match h2 : Iter.next s.iterator with
    | Except.ok (_, i') => Stream.countLoop ⟨i'⟩ (ctr + 1)
    | Except.error _ => False.elim (not_next_error h h2)
  else ctr
termination_by (LawfulIter.toList s.iterator).length
decreasing_by
  rw [toList_next_ok h h2, List.length_cons]
  omega

/-- Terminal Stream.count: total number of elements pulled. -/
def Stream.count {ι E : Type} [Iter ι E] [LawfulIter ι E] (s : Stream ι) : Int :=
  Stream.countLoop s 0

/-- Loop of terminal Stream.count(f) with its running int counter. -/
def Stream.countPLoop {ι E : Type} [Iter ι E] [LawfulIter ι E] (s : Stream ι)
    (f : E → Bool) (ctr : Int) : Int :=
  if h : Iter.hasNext s.iterator = true then
    match h2 : Iter.next s.iterator with
    | Except.ok (x, i') =>
      Stream.countPLoop ⟨i'⟩ f (if f x then ctr + 1 else ctr)
    | Except.error _ => False.elim (not_next_error h h2)
  else ctr
termination_by (LawfulIter.toList s.iterator).length
decreasing_by
  rw [toList_next_ok h h2, List.length_cons]
  omega

/-- Terminal Stream.count(f) of the source (count with a predicate): number
of pulled elements satisfying f. -/
def Stream.countP {ι E : Type} [Iter ι E] [LawfulIter ι E] (s : Stream ι)
    (f : E → Bool) : Int :=
  Stream.countPLoop s f 0

/-- Terminal Stream.emplaceInto: appends every pulled element, in order, to
the append-only target container (modelled as the final content of the
container list). -/
def Stream.emplaceInto {ι E : Type} [Iter ι E] [LawfulIter ι E] (s : Stream ι)
    (cont : List E) : List E :=
  if h : Iter.hasNext s.iterator = true then
    match h2 : Iter.next s.iterator with
    | Except.ok (x, i') => Stream.emplaceInto ⟨i'⟩ (cont ++ [x])
    | Except.error _ => False.elim (not_next_error h h2)
  else cont
termination_by (LawfulIter.toList s.iterator).length
decreasing_by
  rw [toList_next_ok h h2, List.length_cons]
  omega

/-- Elements a stream yields, observed by emplaceInto on an empty target. -/
def Stream.toList {ι E : Type} [Iter ι E] [LawfulIter ι E] (s : Stream ι) : List E :=
  Stream.emplaceInto s []

/-- Stream.emplaceInto appends exactly the iterator's remaining elements, in
order, to the target container. -/
theorem Stream.emplaceInto_eq {ι E : Type} [Iter ι E] [LawfulIter ι E]
    (s : Stream ι) (cont : List E) :
    Stream.emplaceInto s cont = cont ++ LawfulIter.toList s.iterator := by
  induction s, cont using Stream.emplaceInto.induct with
  | case1 s cont h x i' h2 ih =>
    unfold Stream.emplaceInto
    rw [dif_pos h]
    split
    · rename_i y j h3
      rw [h2] at h3
      injection h3 with h4
      injection h4 with hy hj
      subst hy
      subst hj
      rw [ih, toList_next_ok h h2, List.append_assoc]
      rfl
    · rename_i e h3
      exact False.elim (not_next_error h h3)
  | case2 s cont h e h2 =>
    exact False.elim (not_next_error h h2)
  | case3 s cont h =>
    unfold Stream.emplaceInto
    rw [dif_neg h, toList_eq_nil h, List.append_nil]

/-- Stream.toList is the iterator's denotation. -/
theorem Stream.toList_eq {ι E : Type} [Iter ι E] [LawfulIter ι E] (s : Stream ι) :
    Stream.toList s = LawfulIter.toList s.iterator := by
  unfold Stream.toList
  rw [Stream.emplaceInto_eq]
  rfl

/-- The count loop adds the number of remaining elements to its counter. -/
theorem Stream.countLoop_eq {ι E : Type} [Iter ι E] [LawfulIter ι E]
    (s : Stream ι) (ctr : Int) :
    Stream.countLoop s ctr = ctr + ((LawfulIter.toList s.iterator).length : Int) := by
  induction s, ctr using Stream.countLoop.induct with
  | case1 s ctr h x i' h2 ih =>
    unfold Stream.countLoop
    rw [dif_pos h]
    split
    · rename_i y j h3
      rw [h2] at h3
      injection h3 with h4
      injection h4 with hy hj
      subst hy
      subst hj
      rw [ih, toList_next_ok h h2, List.length_cons]
      push_cast
      ring
    · rename_i e h3
      exact False.elim (not_next_error h h3)
  | case2 s ctr h e h2 =>
    exact False.elim (not_next_error h h2)
  | case3 s ctr h =>
    unfold Stream.countLoop
    rw [dif_neg h, toList_eq_nil h]
    simp

/-- Stream.count is the number of remaining elements. -/
theorem Stream.count_eq {ι E : Type} [Iter ι E] [LawfulIter ι E] (s : Stream ι) :
    Stream.count s = ((LawfulIter.toList s.iterator).length : Int) := by
  unfold Stream.count
  rw [Stream.countLoop_eq]
  ring

/-- The predicate-count loop adds the number of remaining matching elements
to its counter. -/
theorem Stream.countPLoop_eq {ι E : Type} [Iter ι E] [LawfulIter ι E]
    (s : Stream ι) (f : E → Bool) (ctr : Int) :
    Stream.countPLoop s f ctr =
      ctr + (((LawfulIter.toList s.iterator).filter f).length : Int) := by
  induction s, f, ctr using Stream.countPLoop.induct with
  | case1 s f ctr h x i' h2 ih =>
    unfold Stream.countPLoop
    rw [dif_pos h]
    split
    · rename_i y j h3
      rw [h2] at h3
      injection h3 with h4
      injection h4 with hy hj
      subst hy
      subst hj
      simp only [dite_eq_ite] at ih
      rw [ih, toList_next_ok h h2, List.filter_cons]
      by_cases hx : f x = true
      · rw [if_pos hx, if_pos hx, List.length_cons]
        push_cast
        ring
      · rw [if_neg hx, if_neg hx]
    · rename_i e h3
      exact False.elim (not_next_error h h3)
  | case2 s f ctr h e h2 =>
    exact False.elim (not_next_error h h2)
  | case3 s f ctr h =>
    unfold Stream.countPLoop
    rw [dif_neg h, toList_eq_nil h]
    simp

/-- Stream.countP counts the remaining elements satisfying the predicate. -/
theorem Stream.countP_eq {ι E : Type} [Iter ι E] [LawfulIter ι E] (s : Stream ι)
    (f : E → Bool) :
    Stream.countP s f = (((LawfulIter.toList s.iterator).filter f).length : Int) := by
  unfold Stream.countP
  rw [Stream.countPLoop_eq]
  ring

/-- Stream.reduce is the left fold, in pull order, of accu = f(element, accu)
over the remaining elements. -/
theorem Stream.reduce_eq {ι E A : Type} [Iter ι E] [LawfulIter ι E] (s : Stream ι)
    (f : E → A → A) (accu : A) :
    Stream.reduce s f accu =
      (LawfulIter.toList s.iterator).foldl (fun a x => f x a) accu := by
  induction s, f, accu using Stream.reduce.induct with
  | case1 s f accu h x i' h2 ih =>
    unfold Stream.reduce
    rw [dif_pos h]
    split
    · rename_i y j h3
      rw [h2] at h3
      injection h3 with h4
      injection h4 with hy hj
      subst hy
      subst hj
      rw [ih, toList_next_ok h h2, List.foldl_cons]
    · rename_i e h3
      exact False.elim (not_next_error h h3)
  | case2 s f accu h e h2 =>
    exact False.elim (not_next_error h h2)
  | case3 s f accu h =>
    unfold Stream.reduce
    rw [dif_neg h, toList_eq_nil h]
    rfl

/-- After Stream.sink has drained a stream, hasNext on its iterator is
false. -/
theorem Stream.sink_hasNext {ι E : Type} [Iter ι E] [LawfulIter ι E] (s : Stream ι) :
    Iter.hasNext (Stream.sink s).iterator = false := by
  induction s using Stream.sink.induct with
  | case1 s h x i' h2 ih =>
    unfold Stream.sink
    rw [dif_pos h]
    split
    · rename_i y j h3
      rw [h2] at h3
      injection h3 with h4
      injection h4 with hy hj
      subst hy
      subst hj
      exact ih
    · rename_i e h3
      exact False.elim (not_next_error h h3)
  | case2 s h e h2 =>
    exact False.elim (not_next_error h h2)
  | case3 s h =>
    unfold Stream.sink
    rw [dif_neg h]
    exact Bool.not_eq_true (Iter.hasNext s.iterator) |>.mp h

/-- Stream.sink of a stream whose iterator has no next element returns it
unchanged: nothing is pulled. -/
theorem Stream.sink_of_exhausted {ι E : Type} [Iter ι E] [LawfulIter ι E]
    (s : Stream ι) (h : ¬ Iter.hasNext s.iterator = true) :
    Stream.sink s = s := by
  unfold Stream.sink
  rw [dif_neg h]

/-- C2: for every finite source sequence (any lawful upstream) and every
predicate f, filter(f) yields exactly the subsequence of source elements
satisfying f in their original relative order, count(f) on the base stream
equals count() on filter(f), and every element yielded by filter(f)
satisfies f. -/
theorem filter_yields_matching_subsequence {ι E : Type} [Iter ι E] [LawfulIter ι E]
    (s : Stream ι) (f : E → Bool) :
    Stream.toList (Stream.filter s f) = (Stream.toList s).filter f ∧
    Stream.countP s f = Stream.count (Stream.filter s f) ∧
    (Stream.toList (Stream.filter s f)).all f = true := by
  have h1 : Stream.toList (Stream.filter s f) = (Stream.toList s).filter f := by
    rw [Stream.toList_eq, Stream.toList_eq]
    show (FilterIterator.moveNext s.iterator f none).toList = _
    rw [FilterIterator.moveNext_spec]
  refine ⟨h1, ?_, ?_⟩
  · rw [Stream.countP_eq, Stream.count_eq]
    show _ = (((FilterIterator.moveNext s.iterator f none).toList).length : Int)
    rw [FilterIterator.moveNext_spec]
  · rw [h1, List.all_eq_true]
    intro x hx
    exact List.of_mem_filter hx

/-- C7: reduce(f, initial) is a left fold in pull order, updating the
accumulator as accu = f(element, accu) and returning the final accumulator;
in particular reducing addition over the stream of 1, 2, 3 from 0 gives 6. -/
theorem reduce_left_fold {ι E A : Type} [Iter ι E] [LawfulIter ι E] (s : Stream ι)
    (f : E → A → A) (accu : A) :
    Stream.reduce s f accu = (Stream.toList s).foldl (fun a x => f x a) accu ∧
    Stream.reduce (Stream.ofList ([1, 2, 3] : List Int)) (fun x acc => acc + x) 0 = 6 := by
  constructor
  · rw [Stream.reduce_eq, Stream.toList_eq]
  · rw [Stream.reduce_eq]
    decide

/-- C8: the tap stage's next pulls one upstream element, invokes the
side-effect function with it (the captured environment advances by exactly
that application), and returns the element unchanged; hence the sequence
produced by tap equals the upstream sequence element for element. -/
theorem tap_passthrough {ι E σ : Type} [Iter ι E] [LawfulIter ι E] (s : Stream ι)
    (lambda : E → σ → σ) (state0 : σ) :
    Stream.toList (Stream.tap s lambda state0) = Stream.toList s ∧
    (∀ (t : TapIterator ι E σ) (x : E) (u : ι), Iter.next t.it = Except.ok (x, u) →
      Iter.next t = Except.ok (x, ⟨u, t.lambda, t.lambda x t.state⟩)) := by
  constructor
  · rw [Stream.toList_eq, Stream.toList_eq]
    rfl
  · intro t x u hok
    show TapIterator.next t = _
    unfold TapIterator.next
    rw [hok]

/-- C4: limit(n) yields exactly min(m, n) elements, namely the first ones of
the upstream in original order; its hasNext is (index below bound) AND
upstream hasNext, and once the bound is reached hasNext is false without
touching the upstream (the state-threaded hasNextM does not even consult
it). -/
theorem limit_yields_min_prefix {ι E : Type} [Iter ι E] [LawfulIter ι E]
    (s : Stream ι) (n : Int) :
    Stream.toList (Stream.limit s n) = (Stream.toList s).take n.toNat ∧
    (Stream.toList (Stream.limit s n)).length = min (Stream.toList s).length n.toNat ∧
    (∀ lim : LimitIterator ι,
      Iter.hasNext lim = (decide (lim.idx < lim.size) && Iter.hasNext lim.it)) ∧
    (∀ lim : LimitIterator ι, lim.size ≤ lim.idx → Iter.hasNextM lim = (false, lim)) := by
  have h1 : Stream.toList (Stream.limit s n) = (Stream.toList s).take n.toNat := by
    rw [Stream.toList_eq, Stream.toList_eq]
    show (LawfulIter.toList s.iterator).take (n - 0).toNat = _
    rw [Int.sub_zero]
  refine ⟨h1, ?_, fun lim => rfl, ?_⟩
  · rw [h1, List.length_take]
    omega
  · intro lim hle
    have hi : ¬ lim.idx < lim.size := by omega
    show (if lim.idx < lim.size then
        ((Iter.hasNextM lim.it).1, (⟨(Iter.hasNextM lim.it).2, lim.size, lim.idx⟩ :
          LimitIterator ι))
      else (false, lim)) = (false, lim)
    rw [if_neg hi]

/-- C10: for every upstream and every bound n at most 0, limit(n) is an
empty stream: hasNext is false from construction, draining it pulls nothing
from the upstream and leaves the iterator untouched, and it counts zero
elements. -/
theorem limit_nonpositive_empty {ι E : Type} [Iter ι E] [LawfulIter ι E]
    (s : Stream ι) (n : Int) (h : n ≤ 0) :
    Iter.hasNext (Stream.limit s n).iterator = false ∧
    Stream.toList (Stream.limit s n) = [] ∧
    Stream.sink (Stream.limit s n) = Stream.limit s n ∧
    Stream.count (Stream.limit s n) = 0 := by
  have h0 : Iter.hasNext (Stream.limit s n).iterator = false := by
    show LimitIterator.hasNext (⟨s.iterator, n, 0⟩ : LimitIterator ι) = false
    unfold LimitIterator.hasNext
    have hn : ¬ ((0 : Int) < n) := by omega
    simp [hn]
  have h2 : Stream.toList (Stream.limit s n) = [] := by
    rw [Stream.toList_eq]
    show (LawfulIter.toList s.iterator).take (n - 0).toNat = []
    have hz : (n - 0).toNat = 0 := by omega
    rw [hz]
    exact List.take_zero _
  refine ⟨h0, h2, ?_, ?_⟩
  · exact Stream.sink_of_exhausted _ (by simp [h0])
  · rw [Stream.count_eq, ← Stream.toList_eq, h2]
    rfl

/-- C10 witness: the properties at the concrete stream over 7 with bound -1. -/
theorem limit_nonpositive_empty_witness :
    Iter.hasNext (Stream.limit (Stream.ofList ([7] : List Nat)) (-1)).iterator = false ∧
    Stream.toList (Stream.limit (Stream.ofList ([7] : List Nat)) (-1)) = [] ∧
    Stream.sink (Stream.limit (Stream.ofList ([7] : List Nat)) (-1)) =
      Stream.limit (Stream.ofList ([7] : List Nat)) (-1) ∧
    Stream.count (Stream.limit (Stream.ofList ([7] : List Nat)) (-1)) = 0 :=
  limit_nonpositive_empty (Stream.ofList ([7] : List Nat)) (-1) (by decide)

/-- C3: flatMap yields exactly the concatenation, in order, of the inner
streams the transform produces for the outer elements (empty inner streams
contribute nothing); when every inner stream is empty the result is an
empty stream, with hasNext false from construction. -/
theorem flatMap_concatenation {ι₁ E ι₂ F : Type} [Iter ι₁ E] [LawfulIter ι₁ E]
    [Iter ι₂ F] [LawfulIter ι₂ F] (s : Stream ι₁) (lambda : E → Stream ι₂) :
    Stream.toList (Stream.flatMap s lambda) =
      ((Stream.toList s).map (fun x => Stream.toList (lambda x))).flatten ∧
    ((∀ x : E, Iter.hasNext (lambda x).iterator = false) →
      Iter.hasNext (Stream.flatMap s lambda).iterator = false) := by
  have hto : Stream.toList (Stream.flatMap s lambda) =
      ((LawfulIter.toList s.iterator).map
        (fun x => LawfulIter.toList (lambda x).iterator)).flatten := by
    rw [Stream.toList_eq]
    show (FlatMapIterator.moveNext s.iterator lambda none).toList = _
    rw [FlatMapIterator.toList_moveNext]
    show innerRemaining none ++ _ = _
    simp only [innerRemaining, List.nil_append]
  constructor
  · rw [hto]
    simp only [Stream.toList_eq]
  · intro hemp
    have hnil : ∀ x : E, LawfulIter.toList (lambda x).iterator = [] := by
      intro x
      exact toList_eq_nil (by simp [hemp x])
    have hmain : LawfulIter.toList (Stream.flatMap s lambda).iterator = [] := by
      show (FlatMapIterator.moveNext s.iterator lambda none).toList = []
      rw [FlatMapIterator.toList_moveNext]
      show innerRemaining none ++ _ = _
      simp only [innerRemaining, List.nil_append]
      rw [List.flatten_eq_nil_iff]
      intro l hl
      rw [List.mem_map] at hl
      obtain ⟨x, _, hx⟩ := hl
      rw [← hx]
      exact hnil x
    have hne := LawfulIter.hasNext_eq (Stream.flatMap s lambda).iterator
    rw [hmain] at hne
    rw [hne]
    rfl

/-- C9: the flat-map stage's estimateRemaining returns only the outer
iterator's estimate, ignoring the elements still buffered in the live inner
iterator; in the concrete chain over the single outer element 0 with inner
stream 1, 2 the estimate is 0 while hasNext is true. -/
theorem flatMap_estimate_outer_only {ι₁ E ι₂ F : Type} [Iter ι₁ E] [LawfulIter ι₁ E]
    [Iter ι₂ F] :
    (∀ fm : FlatMapIterator ι₁ E ι₂ F,
      Iter.estimateRemaining fm = Iter.estimateRemaining fm.streamIt) ∧
    (Iter.estimateRemaining
        (Stream.flatMap (Stream.ofList ([0] : List Nat))
          (fun _ => Stream.ofList ([1, 2] : List Nat))).iterator = 0 ∧
      Iter.hasNext
        (Stream.flatMap (Stream.ofList ([0] : List Nat))
          (fun _ => Stream.ofList ([1, 2] : List Nat))).iterator = true) := by
  refine ⟨fun fm => rfl, ?_, ?_⟩
  · simp [Stream.flatMap, Stream.ofList, FlatMapIterator.moveNext,
      FlatMapIterator.moveNextLoop, Iter.hasNext, Iter.next, Iter.estimateRemaining,
      StreamIterator.hasNext, StreamIterator.next, StreamIterator.estimateRemaining]
  · simp [Stream.flatMap, Stream.ofList, FlatMapIterator.moveNext,
      FlatMapIterator.moveNextLoop, Iter.hasNext, Iter.next,
      StreamIterator.hasNext, StreamIterator.next]

/-- C6: hasNext is a pure, side-effect-free query for every iterator
variant: the state-threaded rendering hasNextM returns the pure answer and
the unchanged iterator (given a pure upstream for the delegating stages),
so repeated calls without an intervening next agree. -/
theorem hasNext_pure_query {ι E F σ ι₂ G : Type} [Iter ι E] [LawfulIter ι E]
    [Iter ι₂ G] (hup : PureHasNext ι E) :
    PureHasNext (StreamIterator E) E ∧
    PureHasNext (EmptyIterator E) E ∧
    PureHasNext (MapIterator ι E F) F ∧
    PureHasNext (FilterIterator ι E) E ∧
    PureHasNext (FlatMapIterator ι E ι₂ G) G ∧
    PureHasNext (TapIterator ι E σ) E ∧
    PureHasNext (LimitIterator ι) E ∧
    (∀ i : ι, Iter.hasNext ((Iter.hasNextM i).2) = Iter.hasNext i) := by
  refine ⟨fun i => rfl, fun i => rfl, ?_, fun i => rfl, fun i => rfl, ?_, ?_, ?_⟩
  · intro m
    show ((Iter.hasNextM m.it).1,
      (⟨(Iter.hasNextM m.it).2, m.lambda⟩ : MapIterator ι E F)) = _
    rw [hup m.it]
    rfl
  · intro t
    show ((Iter.hasNextM t.it).1,
      (⟨(Iter.hasNextM t.it).2, t.lambda, t.state⟩ : TapIterator ι E σ)) = _
    rw [hup t.it]
    rfl
  · intro l
    show (if l.idx < l.size then
        ((Iter.hasNextM l.it).1,
          (⟨(Iter.hasNextM l.it).2, l.size, l.idx⟩ : LimitIterator ι))
      else (false, l)) = (Iter.hasNext l, l)
    by_cases hi : l.idx < l.size
    · rw [if_pos hi, hup l.it]
      have hl : Iter.hasNext l = Iter.hasNext l.it := by
        show (decide (l.idx < l.size) && Iter.hasNext l.it) = _
        simp [hi]
      rw [hl]
    · rw [if_neg hi]
      have hl : Iter.hasNext l = false := by
        show (decide (l.idx < l.size) && Iter.hasNext l.it) = false
        simp [hi]
      rw [hl]
  · intro i
    rw [hup i]

/-- C6 witness: purity of the limit stage over a concrete pure range
source. -/
theorem hasNext_pure_query_witness :
    PureHasNext (LimitIterator (StreamIterator Nat)) Nat :=
  (@hasNext_pure_query (StreamIterator Nat) Nat Nat Nat (StreamIterator Nat) Nat
    _ _ _ (fun _ => rfl)).2.2.2.2.2.2.1

/-- C1 (amended): IllegalState is raised by EmptyIterator's next, whose
hasNext is always false; after a terminal operation fully drains a stream,
a subsequent hasNext on its iterator reports false; but the other variants
do not raise IllegalState when hasNext is false: a range iterator at its
end commits the past-the-end dereference and a filter whose slot was never
constructed commits the uninitialized read (both undefined behaviour, not
an IllegalState throw). -/
theorem illegalState_only_for_empty_source {ι E : Type} [Iter ι E] [LawfulIter ι E]
    (s : Stream ι) :
    (∀ e : EmptyIterator E, Iter.hasNext e = false ∧
      Iter.next e = Except.error StreamError.illegalState) ∧
    Iter.hasNext (Stream.sink s).iterator = false ∧
    (∀ r : StreamIterator E, Iter.hasNext r = false →
      Iter.next r = Except.error StreamError.undefinedBehavior) ∧
    (∀ f : FilterIterator ι E, f.currentValue = none →
      Iter.next f = Except.error StreamError.undefinedBehavior) := by
  refine ⟨fun e => ⟨rfl, rfl⟩, Stream.sink_hasNext s, ?_, ?_⟩
  · intro r hr
    have hc : r.current = [] := by
      have hh : StreamIterator.hasNext r = false := hr
      unfold StreamIterator.hasNext at hh
      cases hc : r.current with
      | nil => rfl
      | cons a l =>
        rw [hc] at hh
        exact absurd hh (by simp)
    show StreamIterator.next r = _
    unfold StreamIterator.next
    rw [hc]
  · intro f hf
    show FilterIterator.next f = _
    unfold FilterIterator.next
    rw [hf]

/-- C1 counterexample: a range stream fully drained by the terminal sink
has hasNext false, yet its next does not raise IllegalState (it is the
undefined past-the-end access instead). -/
theorem drained_range_next_not_illegalState :
    Iter.hasNext (Stream.sink (Stream.ofList ([1, 2] : List Nat))).iterator = false ∧
    Iter.next (Stream.sink (Stream.ofList ([1, 2] : List Nat))).iterator =
      Except.error StreamError.undefinedBehavior ∧
    (Except.error StreamError.undefinedBehavior :
        Except StreamError (Nat × StreamIterator Nat)) ≠
      Except.error StreamError.illegalState := by
  refine ⟨?_, ?_, fun hc => StreamError.noConfusion (Except.error.inj hc)⟩
  · simp [Stream.sink, Stream.ofList, Iter.hasNext, Iter.next,
      StreamIterator.hasNext, StreamIterator.next]
  · simp [Stream.sink, Stream.ofList, Iter.hasNext, Iter.next,
      StreamIterator.hasNext, StreamIterator.next]

end Streams
